import Mathlib

/-!
Verification development for the translation-synchronization engine of the
FS25_NPCFavor repository (src/translations/lang_sync.py).

Modelling conventions (shallow embedding):

A localization file is modelled as the list of its well-formed entry
occurrences in document order, each entry being the triple of raw attribute
texts (key, value, optional embedded source hash).  The Python parser
(parse_translation_file) extracts exactly this list from the raw text; raw
text in between entries is preserved verbatim by the tool and never inspected,
so every observable of the tool is a function of this list.  Files are taken
to be well-formed XML containers: the closing container tag that
find_insert_position falls back to is present, so the insertion fallback
position is the end of the entry list.

The fingerprint function (get_hash in the source, an 8-character truncated
MD5) is carried as an abstract parameter fp: the tool only ever compares
fingerprints for equality, and the spec states that hash values themselves are
not part of any externally visible contract.  Concrete instantiations use
mockFp below.  Likewise the two report-only heuristics
is_format_only_string and is_cognate_or_international_term are carried as
abstract boolean parameters fOnly and cogn where they occur; no claim under
study depends on their behaviour.
-/

namespace LangSync

/-- One well-formed entry occurrence of a localization file: raw key text,
raw value text, and the optional embedded source-hash attribute text.
Mirrors one match of the entry pattern in parse_translation_file
(lang_sync.py lines 462-480); a missing eh attribute is `none`. -/
structure Entry where
  key : String
  value : String
  hash : Option String
deriving DecidableEq, Repr

/-- The two entry-encoding dialects auto-detected by the tool. -/
inductive Fmt where
  | elements
  | texts
deriving DecidableEq, Repr

/-- CONFIG untranslatedPrefix (lang_sync.py line 111). -/
def untransMark : String := "[EN] "

/-- Ordered key list of a parsed file, every occurrence in document order
(ordered_keys in parse_translation_file). -/
def keysOf (f : List Entry) : List String := f.map (·.key)

/-- Last-occurrence lookup: the entries dict of parse_translation_file is
built by overwriting, so a lookup returns the last occurrence of the key. -/
def lookupLast (f : List Entry) (k : String) : Option Entry :=
  (f.filter (fun e => e.key = k)).getLast?

/-- First-occurrence lookup (used only to state claims about occurrence
precedence; the Python dict never exposes it). -/
def lookupFirst (f : List Entry) (k : String) : Option Entry :=
  (f.filter (fun e => e.key = k)).head?

/-- Helper for duplicatesOf: walks the occurrence list with the set of keys
seen so far, recording every repeat (lang_sync.py lines 476-477:
`if key in entries: duplicates.append(key)`). -/
def dupsFrom (seen : List String) : List Entry → List String
  | [] => []
  | e :: rest =>
    if e.key ∈ seen then e.key :: dupsFrom (e.key :: seen) rest
    else dupsFrom (e.key :: seen) rest

/-- Duplicate list of a parsed file: one diagnostic per repeated occurrence
beyond the first. -/
def duplicatesOf (f : List Entry) : List String := dupsFrom [] f

/-- Helper for dictKeys: first-occurrence order without repeats. -/
def firstKeys (seen : List String) : List Entry → List String
  | [] => []
  | e :: rest =>
    if e.key ∈ seen then firstKeys seen rest
    else e.key :: firstKeys (e.key :: seen) rest

/-- Iteration order of the entries dict (`source_entries.items()`): each key
once, in first-occurrence document order. -/
def dictKeys (f : List Entry) : List String := firstKeys [] f

/-- Python truthiness of the parsed hash attribute: both a missing attribute
(None) and an empty string are falsy. -/
def truthy : Option String → Bool
  | none => false
  | some s => s ≠ ""

/-- Python str.startswith with the untranslated marker, computed on the
character lists (the byte-level String.startsWith of core Lean does not
reduce in the kernel; this is its character-level equivalent). -/
def startsWithStr (p v : String) : Bool := p.toList.isPrefixOf v.toList

/-- Source value of a key: the value of its last occurrence in the source
file (source_entries[key].value), empty for an absent key. -/
def srcVal (S : List Entry) (k : String) : String :=
  match lookupLast S k with
  | some e => e.value
  | none => ""

/-- Concrete stand-in fingerprint used for witnesses and counterexamples:
deterministic, value-dependent, cheap to evaluate.  Only fingerprint
equality and inequality matter to the tool. -/
def mockFp (s : String) : String := toString s.length ++ String.mk (s.toList.take 2)

/- ------------------------------------------------------------------
Basic lemmas about the parse-derived functions.
------------------------------------------------------------------ -/

theorem mem_keysOf {f : List Entry} {k : String} :
    k ∈ keysOf f ↔ ∃ e ∈ f, e.key = k := by
  simp [keysOf]

theorem lookupLast_isSome_of_mem {f : List Entry} {k : String} (h : k ∈ keysOf f) :
    ∃ e, lookupLast f k = some e := by
  rcases mem_keysOf.mp h with ⟨e, he, hk⟩
  have hne : f.filter (fun e => e.key = k) ≠ [] := by
    intro hnil
    have hmem : e ∈ f.filter (fun e => e.key = k) := by
      simp [List.mem_filter, he, hk]
    rw [hnil] at hmem
    cases hmem
  exact ⟨_, List.getLast?_eq_getLast_of_ne_nil hne⟩

theorem lookupLast_mem_filter {f : List Entry} {k : String} {e : Entry}
    (h : lookupLast f k = some e) : e ∈ f.filter (fun e => e.key = k) := by
  have h2 : e ∈ (f.filter (fun e => e.key = k)).getLast? := Option.mem_def.mpr h
  rcases List.mem_getLast?_eq_getLast h2 with ⟨hne, heq⟩
  rw [heq]
  exact List.getLast_mem hne

theorem lookupLast_key {f : List Entry} {k : String} {e : Entry}
    (h : lookupLast f k = some e) : e.key = k := by
  simpa using (List.mem_filter.mp (lookupLast_mem_filter h)).2

theorem lookupLast_mem {f : List Entry} {k : String} {e : Entry}
    (h : lookupLast f k = some e) : e ∈ f :=
  (List.mem_filter.mp (lookupLast_mem_filter h)).1

theorem lookupLast_eq_none_of_not_mem {f : List Entry} {k : String}
    (h : k ∉ keysOf f) : lookupLast f k = none := by
  have hf : f.filter (fun e => e.key = k) = [] := by
    apply List.filter_eq_nil_iff.mpr
    intro e he
    simp only [decide_eq_true_eq]
    intro hk
    exact h (mem_keysOf.mpr ⟨e, he, hk⟩)
  simp [lookupLast, hf]

theorem mem_firstKeys {k : String} :
    ∀ (f : List Entry) (seen : List String),
      k ∈ firstKeys seen f ↔ k ∈ keysOf f ∧ k ∉ seen := by
  intro f
  induction f with
  | nil => intro seen; simp [firstKeys, keysOf]
  | cons e rest ih =>
    intro seen
    by_cases hk : e.key ∈ seen
    · rw [firstKeys, if_pos hk, ih]
      simp only [keysOf, List.map_cons, List.mem_cons]
      by_cases hke : k = e.key
      · subst hke; simp [hk]
      · simp [hke, keysOf]
    · rw [firstKeys, if_neg hk]
      simp only [List.mem_cons, ih, keysOf, List.map_cons, not_or]
      by_cases hke : k = e.key
      · subst hke; simp [hk]
      · simp [hke, keysOf]

theorem mem_dictKeys {f : List Entry} {k : String} :
    k ∈ dictKeys f ↔ k ∈ keysOf f := by
  rw [dictKeys, mem_firstKeys]
  simp

/- ------------------------------------------------------------------
Format-specifier extraction and comparison (lang_sync.py lines 192-235).

The regex
  %[-+0#]*(\d+)?(\.\d+)?(hh?|ll?|L|z|j|t)?[diouxXeEfFgGaAcspn]
is embedded as a deterministic greedy matcher over the character list.
Greediness with this particular pattern is equivalent to full backtracking:
giving characters back from the flag run or digit run only ever exposes a
flag or digit character to the tail, which the tail can never accept, and
the alternation of length modifiers is tried in regex priority order below.
------------------------------------------------------------------ -/

/-- Conversion characters of the specifier regex. -/
def isConvChar (c : Char) : Bool :=
  c = 'd' || c = 'i' || c = 'o' || c = 'u' || c = 'x' || c = 'X' ||
  c = 'e' || c = 'E' || c = 'f' || c = 'F' || c = 'g' || c = 'G' ||
  c = 'a' || c = 'A' || c = 'c' || c = 's' || c = 'p' || c = 'n'

/-- Flag characters of the specifier regex. -/
def isFlagChar (c : Char) : Bool :=
  c = '-' || c = '+' || c = '0' || c = '#'

/-- Decimal digit test. -/
def isDigitChar (c : Char) : Bool :=
  '0' ≤ c && c ≤ '9'

/-- Tries one length-modifier candidate followed by the mandatory conversion
character. -/
def tryConv : List Char × List Char → Option (List Char × List Char)
  | (consumed, c :: r) => if isConvChar c then some (consumed ++ [c], r) else none
  | (_, []) => none

/-- First candidate that a conversion character completes. -/
def firstSome (cands : List (List Char × List Char)) :
    Option (List Char × List Char) :=
  match cands with
  | [] => none
  | x :: xs =>
    match tryConv x with
    | some y => some y
    | none => firstSome xs

/-- Length-modifier alternation (hh?|ll?|L|z|j|t)? followed by the conversion
character, candidates in regex priority order (longest alternative first,
then the empty option). -/
def matchLenConv (cs : List Char) : Option (List Char × List Char) :=
  match cs with
  | 'h' :: 'h' :: r => firstSome [(['h', 'h'], r), (['h'], 'h' :: r), ([], cs)]
  | 'h' :: r => firstSome [(['h'], r), ([], cs)]
  | 'l' :: 'l' :: r => firstSome [(['l', 'l'], r), (['l'], 'l' :: r), ([], cs)]
  | 'l' :: r => firstSome [(['l'], r), ([], cs)]
  | 'L' :: r => firstSome [(['L'], r), ([], cs)]
  | 'z' :: r => firstSome [(['z'], r), ([], cs)]
  | 'j' :: r => firstSome [(['j'], r), ([], cs)]
  | 't' :: r => firstSome [(['t'], r), ([], cs)]
  | _ => firstSome [([], cs)]

/-- Matches the body of a specifier, the part after the percent sign:
greedy flags, greedy width digits, optional precision (a dot must be
followed by at least one digit to count), then length modifier and
conversion character.  Returns the consumed characters and the rest. -/
def matchSpecBody (cs : List Char) : Option (List Char × List Char) :=
  let p1 := cs.span isFlagChar
  let p2 := p1.2.span isDigitChar
  let p3 : List Char × List Char :=
    match p2.2 with
    | '.' :: r =>
      let pd := r.span isDigitChar
      if pd.1.isEmpty then ([], p2.2) else ('.' :: pd.1, pd.2)
    | _ => ([], p2.2)
  match matchLenConv p3.2 with
  | some (lc, rest) => some (p1.1 ++ p2.1 ++ p3.1 ++ lc, rest)
  | none => none

/-- Scan of re.finditer: tries to match at every position from the left,
resuming after the end of each match.  Fuel is the remaining length; each
successful match consumes at least the conversion character, so the fuel
never runs out before the characters do. -/
def findSpecsAux : Nat → List Char → List String
  | 0, _ => []
  | _ + 1, [] => []
  | fuel + 1, c :: rest =>
    if c = '%' then
      match matchSpecBody rest with
      | some (body, r) => String.mk ('%' :: body) :: findSpecsAux fuel r
      | none => findSpecsAux fuel rest
    else findSpecsAux fuel rest

/-- All specifier matches of a string in document order. -/
def findSpecs (s : String) : List String :=
  findSpecsAux s.toList.length s.toList

/-- Lexicographic comparison by code points, as Python compares strings. -/
def charListLe : List Char → List Char → Bool
  | [], _ => true
  | _ :: _, [] => false
  | a :: as, b :: bs =>
    if a.toNat = b.toNat then charListLe as bs
    else decide (a.toNat < b.toNat)

/-- String comparison used by the sort. -/
def strLe (a b : String) : Bool := charListLe a.toList b.toList

/-- Insertion into a sorted list. -/
def insertSorted (x : String) : List String → List String
  | [] => [x]
  | y :: ys => if strLe x y then x :: y :: ys else y :: insertSorted x ys

/-- Sorting as the Python built-in sorted does on a list of strings. -/
def sortStrings (l : List String) : List String := l.foldr insertSorted []

/-- extract_format_specifiers (lang_sync.py lines 192-203): the matches of
the specifier regex, returned SORTED, not in document order. -/
def extract_format_specifiers (s : String) : List String :=
  sortStrings (findSpecs s)

/-- Outcome of check_format_specifiers when the values disagree: a count
mismatch or a positional mismatch, carrying both extracted lists. -/
inductive FormatIssue where
  | count (src tgt : List String)
  | mismatch (src tgt : List String)
deriving DecidableEq, Repr

/-- First position where two equal-length lists disagree. -/
def firstMismatch : List String → List String → Option (String × String)
  | a :: as, b :: bs => if a = b then firstMismatch as bs else some (a, b)
  | _, _ => none

/-- check_format_specifiers (lang_sync.py lines 206-235): count check first,
then a positional walk over the two extracted (sorted) lists. -/
def check_format_specifiers (sv tv : String) : Option FormatIssue :=
  let ss := extract_format_specifiers sv
  let ts := extract_format_specifiers tv
  if ss.length ≠ ts.length then some (.count ss ts)
  else
    match firstMismatch ss ts with
    | some _ => some (.mismatch ss ts)
    | none => none

theorem firstMismatch_eq_none_iff :
    ∀ (a b : List String), a.length = b.length →
      (firstMismatch a b = none ↔ a = b) := by
  intro a
  induction a with
  | nil =>
    intro b hb
    cases b with
    | nil => simp [firstMismatch]
    | cons y ys => simp at hb
  | cons x xs ih =>
    intro b hb
    cases b with
    | nil => simp at hb
    | cons y ys =>
      simp only [List.length_cons, Nat.succ.injEq] at hb
      by_cases hxy : x = y
      · subst hxy
        rw [firstMismatch, if_pos rfl, ih ys hb]
        simp
      · rw [firstMismatch, if_neg hxy]
        simp [hxy]

/-- Equality of the two extracted lists is exactly absence of a format
issue. -/
theorem check_format_specifiers_none_iff (sv tv : String) :
    check_format_specifiers sv tv = none ↔
      extract_format_specifiers sv = extract_format_specifiers tv := by
  unfold check_format_specifiers
  by_cases hlen :
      (extract_format_specifiers sv).length = (extract_format_specifiers tv).length
  · rw [if_neg (by simpa using hlen)]
    rcases h : firstMismatch (extract_format_specifiers sv)
        (extract_format_specifiers tv) with _ | p
    · simp only []
      have := (firstMismatch_eq_none_iff _ _ hlen).mp h
      simp [this]
    · simp only []
      constructor
      · intro hc; cases hc
      · intro he
        have : firstMismatch (extract_format_specifiers sv)
            (extract_format_specifiers tv) = none := by
          rw [(firstMismatch_eq_none_iff _ _ hlen)]
          exact he
        rw [this] at h
        cases h
  · rw [if_pos (by simpa using hlen)]
    constructor
    · intro hc; cases hc
    · intro he; exact absurd (congrArg List.length he) hlen

theorem firstMismatch_ne_of_eq_some {a b : List String} {p : String × String}
    (hlen : a.length = b.length) (h : firstMismatch a b = some p) : a ≠ b := by
  intro he
  rw [(firstMismatch_eq_none_iff a b hlen).mpr he] at h
  cases h

/-- C4 counterexample: the two values carry the same specifiers in a
different order; their document-order specifier lists differ at every
position, yet check_format_specifiers reports no issue, because
extract_format_specifiers returns a SORTED list (its own docstring:
Returns sorted list for comparison), not the ordered list the claim
assumes. -/
theorem C4_counterexample :
    findSpecs "%d %s" = ["%d", "%s"] ∧
    findSpecs "%s %d" = ["%s", "%d"] ∧
    check_format_specifiers "%d %s" "%s %d" = none := by
  refine ⟨?_, ?_, ?_⟩ <;> rfl

/-- C4 (amended): the validator compares the SORTED lists of printf-style
specifiers extracted from the two values; it reports a FormatError carrying
both (sorted) lists exactly when those lists differ in count or in the
specifier at some position, so two values with the same multiset of
specifiers in a different order yield no error. -/
theorem C4_sorted_specifier_parity (sv tv : String) :
    (check_format_specifiers sv tv = none ↔
        extract_format_specifiers sv = extract_format_specifiers tv) ∧
    (∀ ss ts, check_format_specifiers sv tv = some (.count ss ts) →
        ss = extract_format_specifiers sv ∧ ts = extract_format_specifiers tv ∧
        ss.length ≠ ts.length) ∧
    (∀ ss ts, check_format_specifiers sv tv = some (.mismatch ss ts) →
        ss = extract_format_specifiers sv ∧ ts = extract_format_specifiers tv ∧
        ss.length = ts.length ∧ ss ≠ ts) := by
  refine ⟨check_format_specifiers_none_iff sv tv, ?_, ?_⟩
  · intro ss ts h
    unfold check_format_specifiers at h
    by_cases hlen :
        (extract_format_specifiers sv).length = (extract_format_specifiers tv).length
    · rw [if_neg (by simpa using hlen)] at h
      rcases hm : firstMismatch (extract_format_specifiers sv)
          (extract_format_specifiers tv) with _ | p <;> rw [hm] at h <;> cases h
    · rw [if_pos (by simpa using hlen)] at h
      cases h
      exact ⟨rfl, rfl, hlen⟩
  · intro ss ts h
    unfold check_format_specifiers at h
    by_cases hlen :
        (extract_format_specifiers sv).length = (extract_format_specifiers tv).length
    · rw [if_neg (by simpa using hlen)] at h
      rcases hm : firstMismatch (extract_format_specifiers sv)
          (extract_format_specifiers tv) with _ | p <;> rw [hm] at h
      · cases h
      · cases h
        exact ⟨rfl, rfl, hlen, firstMismatch_ne_of_eq_some hlen hm⟩
    · rw [if_pos (by simpa using hlen)] at h
      cases h

/-- C4 witness: the amended theorem applied at one value with a specifier
and one without: a count FormatError carrying both sorted lists. -/
theorem C4_sorted_specifier_parity_witness :
    check_format_specifiers "%d" "no spec" = some (.count ["%d"] []) ∧
    (["%d"] : List String).length ≠ ([] : List String).length :=
  ⟨rfl, ((C4_sorted_specifier_parity "%d" "no spec").2.1 ["%d"] [] rfl).2.2⟩

/- ------------------------------------------------------------------
Duplicate accounting of the parser (claim C9).
------------------------------------------------------------------ -/

theorem keysOf_append (A B : List Entry) :
    keysOf (A ++ B) = keysOf A ++ keysOf B := by
  simp [keysOf]

theorem keysOf_cons (e : Entry) (f : List Entry) :
    keysOf (e :: f) = e.key :: keysOf f := rfl

theorem count_dupsFrom (k : String) :
    ∀ (f : List Entry) (seen : List String),
      (dupsFrom seen f).count k =
        if k ∈ seen then (keysOf f).count k else (keysOf f).count k - 1 := by
  intro f
  induction f with
  | nil => intro seen; simp [dupsFrom, keysOf]
  | cons e rest ih =>
    intro seen
    by_cases hk : e.key ∈ seen <;> by_cases hke : k = e.key
    · subst hke
      rw [dupsFrom, if_pos hk, List.count_cons_self, ih,
        if_pos (List.mem_cons_self _ _), if_pos hk, keysOf_cons, List.count_cons_self]
    · rw [dupsFrom, if_pos hk, List.count_cons_of_ne hke, ih, keysOf_cons,
        List.count_cons_of_ne hke]
      have hmem : (k ∈ e.key :: seen) ↔ k ∈ seen := by
        simp only [List.mem_cons]
        exact or_iff_right hke
      by_cases hks : k ∈ seen
      · rw [if_pos (hmem.mpr hks), if_pos hks]
      · rw [if_neg (fun h => hks (hmem.mp h)), if_neg hks]
    · subst hke
      rw [dupsFrom, if_neg hk, ih, if_pos (List.mem_cons_self _ _), if_neg hk,
        keysOf_cons, List.count_cons_self]
      omega
    · rw [dupsFrom, if_neg hk, ih, keysOf_cons, List.count_cons_of_ne hke]
      have hmem : (k ∈ e.key :: seen) ↔ k ∈ seen := by
        simp only [List.mem_cons]
        exact or_iff_right hke
      by_cases hks : k ∈ seen
      · rw [if_pos (hmem.mpr hks), if_pos hks]
      · rw [if_neg (fun h => hks (hmem.mp h)), if_neg hks]

theorem count_keysOf_eq_zero {f : List Entry} {k : String} (h : k ∉ keysOf f) :
    (keysOf f).count k = 0 :=
  List.count_eq_zero.mpr h

/-- C9: a file containing the same key exactly twice with different values
yields exactly one Duplicate diagnostic for that key, the entry-map lookup
for that key returns the last occurrence, and the ordered-key list contains
both occurrences in document order. -/
theorem C9_duplicate_detection (A B C : List Entry) (e1 e2 : Entry) (k : String)
    (h1 : e1.key = k) (h2 : e2.key = k) (hv : e1.value ≠ e2.value)
    (hA : k ∉ keysOf A) (hB : k ∉ keysOf B) (hC : k ∉ keysOf C) :
    (duplicatesOf (A ++ e1 :: B ++ e2 :: C)).count k = 1 ∧
    lookupLast (A ++ e1 :: B ++ e2 :: C) k = some e2 ∧
    keysOf (A ++ e1 :: B ++ e2 :: C) = keysOf A ++ k :: (keysOf B ++ k :: keysOf C) := by
  have hcnt : (keysOf (A ++ e1 :: B ++ e2 :: C)).count k = 2 := by
    have h3 : keysOf (A ++ e1 :: B ++ e2 :: C)
        = keysOf A ++ e1.key :: (keysOf B ++ e2.key :: keysOf C) := by
      simp [keysOf]
    rw [h3, h1, h2, List.count_append, count_keysOf_eq_zero hA,
      List.count_cons_self, List.count_append, count_keysOf_eq_zero hB,
      List.count_cons_self, count_keysOf_eq_zero hC]
  refine ⟨?_, ?_, ?_⟩
  · rw [duplicatesOf, count_dupsFrom, if_neg (List.not_mem_nil k), hcnt]
  · have hfA : A.filter (fun e => e.key = k) = [] := by
      apply List.filter_eq_nil_iff.mpr
      intro e he
      simp only [decide_eq_true_eq]
      intro hk
      exact hA (mem_keysOf.mpr ⟨e, he, hk⟩)
    have hfB : B.filter (fun e => e.key = k) = [] := by
      apply List.filter_eq_nil_iff.mpr
      intro e he
      simp only [decide_eq_true_eq]
      intro hk
      exact hB (mem_keysOf.mpr ⟨e, he, hk⟩)
    have hfC : C.filter (fun e => e.key = k) = [] := by
      apply List.filter_eq_nil_iff.mpr
      intro e he
      simp only [decide_eq_true_eq]
      intro hk
      exact hC (mem_keysOf.mpr ⟨e, he, hk⟩)
    rw [lookupLast]
    simp [List.filter_append, List.filter_cons, hfA, hfB, hfC, h1, h2]
  · simp [keysOf, h1, h2]

/-- C9 witness: the theorem applied to the two-entry file with key k and
values v1, v2. -/
theorem C9_duplicate_detection_witness :
    (duplicatesOf [⟨"k", "v1", none⟩, ⟨"k", "v2", none⟩]).count "k" = 1 ∧
    lookupLast [⟨"k", "v1", none⟩, ⟨"k", "v2", none⟩] "k" =
      some ⟨"k", "v2", none⟩ ∧
    keysOf [⟨"k", "v1", none⟩, ⟨"k", "v2", none⟩] =
      [] ++ "k" :: ([] ++ "k" :: []) :=
  C9_duplicate_detection [] [] [] ⟨"k", "v1", none⟩ ⟨"k", "v2", none⟩ "k"
    rfl rfl (by decide) (by simp [keysOf]) (by simp [keysOf]) (by simp [keysOf])

/- ------------------------------------------------------------------
Serialization helpers and the sync algorithm (lang_sync.py lines 490-727).
------------------------------------------------------------------ -/

/-- Character-wise substitution: one pass of Python str.replace with a
single-character pattern. -/
def replChar (c : Char) (r : String) (s : String) : String :=
  String.mk (s.toList.foldr (fun ch acc => if ch = c then r.toList ++ acc else ch :: acc) [])

/-- escape_xml (lang_sync.py lines 179-185): the four XML metacharacters are
replaced in sequence, ampersand first. -/
def escape_xml (s : String) : String :=
  replChar '"' "&quot;" (replChar '>' "&gt;" (replChar '<' "&lt;" (replChar '&' "&amp;" s)))

/-- format_entry (lang_sync.py lines 490-496) viewed at the entry level: the
value is XML-escaped, and only the elements dialect carries the hash
attribute. -/
def format_entry (fmt : Fmt) (k v h : String) : Entry :=
  { key := k, value := escape_xml v,
    hash := if fmt = .elements then some h else none }

/-- The entry synthesized for a missing key during sync (lang_sync.py lines
685-689): placeholder value is the untranslated marker concatenated with the
source value, hash is the fingerprint of the source value. -/
def mkMissingEntry (fmt : Fmt) (fp : String → String) (S : List Entry) (k : String) : Entry :=
  format_entry fmt k (untransMark ++ srcVal S k) (fp (srcVal S k))

/-- List insertion at an index (clamped to the end), the entry-level view of
splicing new text into the raw content at a computed offset. -/
def insertAt (n : Nat) (ne : Entry) : List Entry → List Entry
  | l =>
    match n, l with
    | 0, l => ne :: l
    | _ + 1, [] => [ne]
    | m + 1, x :: l => x :: insertAt m ne l

/-- Index of the first occurrence of a key in the content, the entry-level
counterpart of pattern.search over the raw text. -/
def firstIdxKey (content : List Entry) (p : String) : Option Nat :=
  content.findIdx? (fun e => e.key = p)

/-- Backward walk of find_insert_position (lang_sync.py lines 503-513) over
the source keys before the missing key, reversed: the first candidate that
is in the language key set and whose serialized occurrence is found in the
content gives the position immediately after that occurrence. -/
def findPredPos (content : List Entry) (langKeys : List String) : List String → Option Nat
  | [] => none
  | p :: rest =>
    if p ∈ langKeys then
      match firstIdxKey content p with
      | some i => some (i + 1)
      | none => findPredPos content langKeys rest
    else findPredPos content langKeys rest

/-- find_insert_position (lang_sync.py lines 499-521) on a well-formed
container file: the fallback position just before the closing container tag
is the end of the entry list, so a position is always found. -/
def find_insert_position (content : List Entry) (k : String) (srcKeys langKeys : List String) : Nat :=
  let fi := srcKeys.findIdx (fun x => x = k)
  match findPredPos content langKeys ((srcKeys.take fi).reverse) with
  | some i => i
  | none => content.length

/-- State of the missing-key insertion loop of sync_translations: current
content, current language key set (lang_key_set, grown after each
insertion), and the count of added entries. -/
structure InsState where
  content : List Entry
  langKeys : List String
  added : Nat
deriving Repr

/-- One iteration of the insertion loop (lang_sync.py lines 685-696). -/
def insertOne (fmt : Fmt) (fp : String → String) (S : List Entry) (srcKeys : List String)
    (st : InsState) (k : String) : InsState :=
  let ne := mkMissingEntry fmt fp S k
  let pos := find_insert_position st.content k srcKeys st.langKeys
  { content := insertAt pos ne st.content,
    langKeys := st.langKeys ++ [k],
    added := st.added + 1 }

/-- Missing keys of a target (lang_sync.py lines 655-659): every source key
occurrence absent from the target key set, in source order. -/
def syncMissing (S T : List Entry) : List String :=
  (keysOf S).filter (fun k => decide (k ∉ keysOf T))

/-- Stale keys of a target as computed by sync_translations (lang_sync.py
lines 660-663): present source keys whose last target occurrence has a hash
attribute differing from the source fingerprint (a missing hash differs)
and whose value does not start with the untranslated marker.  Empty for the
texts dialect. -/
def syncStale (fmt : Fmt) (fp : String → String) (S T : List Entry) : List String :=
  if fmt = .elements then
    (keysOf S).filter (fun k =>
      match lookupLast T k with
      | none => false
      | some et =>
        decide (et.hash ≠ some (fp (srcVal S k))) && !(startsWithStr untransMark et.value))
  else []

/-- Hash refresh per-entry update: entries carrying the key get their hash
attribute rewritten to the current source fingerprint, the value untouched
(the regex replacer of lang_sync.py lines 712-722). -/
def refreshEntry (fp : String → String) (S : List Entry) (k : String) (e : Entry) : Entry :=
  if e.key = k then { e with hash := some (fp (srcVal S k)) } else e

/-- should_add_hash condition of the refresh loop (lang_sync.py lines
705-707), evaluated on the ORIGINAL parse of the target: refresh unless the
key is flagged stale, except that a stale key whose entry has a falsy hash
attribute and no untranslated marker is refreshed anyway. -/
def shouldAddHash (T : List Entry) (stale : List String) (k : String) : Bool :=
  match lookupLast T k with
  | none => false
  | some e =>
    decide (k ∉ stale) || (!truthy e.hash && !(startsWithStr untransMark e.value))

/-- Hash-refresh loop of sync_translations (lang_sync.py lines 699-724):
for every source key present in the original target parse and not missing,
when should_add_hash holds, every occurrence of the key in the current
content gets its hash rewritten to the source fingerprint. -/
def refreshFold (fp : String → String) (S T : List Entry) (missing stale : List String)
    (content : List Entry) : List Entry :=
  (dictKeys S).foldl
    (fun c k =>
      if decide (k ∈ keysOf T) && decide (k ∉ missing) && shouldAddHash T stale k then
        c.map (refreshEntry fp S k)
      else c)
    content

/-- Result of syncing one target file: the new content and the number of
inserted entries. -/
structure TargetResult where
  content : List Entry
  added : Nat
deriving DecidableEq, Repr

/-- Per-target body of sync_translations (lang_sync.py lines 638-727):
classify missing and stale keys against the (already hash-refreshed) source,
insert every missing key, then refresh hashes of existing entries under the
elements dialect. -/
def syncTarget (fmt : Fmt) (fp : String → String) (S T : List Entry) : TargetResult :=
  let missing := syncMissing S T
  let stale := syncStale fmt fp S T
  let st1 := missing.foldl (insertOne fmt fp S (keysOf S)) ⟨T, keysOf T, 0⟩
  let c2 := if fmt = .elements then refreshFold fp S T missing stale st1.content
            else st1.content
  ⟨c2, st1.added⟩

/-- update_source_hashes (lang_sync.py lines 528-561): for every key of the
source entries dict whose recorded hash differs from the fingerprint of its
(last) value, rewrite the hash of every occurrence of that key; returns the
new content and the number of updated keys. -/
def update_source_hashes (fp : String → String) (S : List Entry) : List Entry × Nat :=
  (dictKeys S).foldl
    (fun acc k =>
      match lookupLast S k with
      | none => acc
      | some e =>
        if e.hash ≠ some (fp e.value) then
          (acc.1.map (refreshEntry fp S k), acc.2 + 1)
        else acc)
    (S, 0)

/-- Whole sync command (sync_translations): refresh the source hashes first
under the elements dialect, then sync every target against the refreshed
source.  A target whose file does not exist (none) is skipped. -/
def syncCommand (fmt : Fmt) (fp : String → String) (S : List Entry)
    (ts : List (Option (List Entry))) : (List Entry × Nat) × List (Option TargetResult) :=
  let us := if fmt = .elements then update_source_hashes fp S else (S, 0)
  ((us.1, us.2), ts.map (fun t? => t?.map (fun t => syncTarget fmt fp us.1 t)))

/- ------------------------------------------------------------------
Infrastructure lemmas about insertion and hash refresh.
------------------------------------------------------------------ -/

theorem insertAt_zero (ne : Entry) (l : List Entry) : insertAt 0 ne l = ne :: l := rfl

theorem insertAt_succ_nil (n : Nat) (ne : Entry) : insertAt (n + 1) ne [] = [ne] := rfl

theorem insertAt_succ_cons (n : Nat) (ne x : Entry) (l : List Entry) :
    insertAt (n + 1) ne (x :: l) = x :: insertAt n ne l := rfl

theorem mem_insertAt (a ne : Entry) :
    ∀ (n : Nat) (l : List Entry), a ∈ insertAt n ne l ↔ a = ne ∨ a ∈ l := by
  intro n
  induction n with
  | zero => intro l; rw [insertAt_zero]; simp
  | succ m ih =>
    intro l
    cases l with
    | nil => rw [insertAt_succ_nil]; simp
    | cons x l =>
      rw [insertAt_succ_cons]
      simp only [List.mem_cons, ih]
      tauto

theorem filter_insertAt (p : Entry → Bool) (ne : Entry) (hp : p ne = false) :
    ∀ (n : Nat) (l : List Entry), (insertAt n ne l).filter p = l.filter p := by
  intro n
  induction n with
  | zero => intro l; rw [insertAt_zero, List.filter_cons, hp]; simp
  | succ m ih =>
    intro l
    cases l with
    | nil => rw [insertAt_succ_nil, List.filter_cons, hp]; simp
    | cons x l => rw [insertAt_succ_cons, List.filter_cons, List.filter_cons, ih]

theorem mkMissingEntry_key (fmt : Fmt) (fp : String → String) (S : List Entry) (k : String) :
    (mkMissingEntry fmt fp S k).key = k := rfl

theorem insFold_content_mem (fmt : Fmt) (fp : String → String) (S : List Entry)
    (srcKeys : List String) (a : Entry) :
    ∀ (ms : List String) (st : InsState),
      a ∈ (ms.foldl (insertOne fmt fp S srcKeys) st).content ↔
        a ∈ st.content ∨ ∃ k ∈ ms, a = mkMissingEntry fmt fp S k := by
  intro ms
  induction ms with
  | nil => intro st; simp
  | cons k ms ih =>
    intro st
    rw [List.foldl_cons, ih]
    rw [insertOne]
    simp only [mem_insertAt, List.mem_cons]
    constructor
    · rintro ((h | h) | ⟨k', hk', he⟩)
      · exact Or.inr ⟨k, Or.inl rfl, h⟩
      · exact Or.inl h
      · exact Or.inr ⟨k', Or.inr hk', he⟩
    · rintro (h | ⟨k', (hk' | hk'), he⟩)
      · exact Or.inl (Or.inr h)
      · exact Or.inl (Or.inl (hk' ▸ he))
      · exact Or.inr ⟨k', hk', he⟩

theorem insFold_added (fmt : Fmt) (fp : String → String) (S : List Entry)
    (srcKeys : List String) :
    ∀ (ms : List String) (st : InsState),
      (ms.foldl (insertOne fmt fp S srcKeys) st).added = st.added + ms.length := by
  intro ms
  induction ms with
  | nil => intro st; simp
  | cons k ms ih =>
    intro st
    rw [List.foldl_cons, ih, insertOne]
    simp
    omega

theorem insFold_filter (fmt : Fmt) (fp : String → String) (S : List Entry)
    (srcKeys : List String) (p : Entry → Bool) :
    ∀ (ms : List String) (st : InsState),
      (∀ k ∈ ms, p (mkMissingEntry fmt fp S k) = false) →
      (ms.foldl (insertOne fmt fp S srcKeys) st).content.filter p = st.content.filter p := by
  intro ms
  induction ms with
  | nil => intro st _; simp
  | cons k ms ih =>
    intro st hp
    rw [List.foldl_cons, ih _ (fun k' hk' => hp k' (List.mem_cons_of_mem _ hk')),
      insertOne]
    exact filter_insertAt p _ (hp k (List.mem_cons_self _ _)) _ _

theorem insFold_mem_keys (fmt : Fmt) (fp : String → String) (S : List Entry)
    (srcKeys : List String) (k' : String) (ms : List String) (st : InsState) :
    k' ∈ keysOf (ms.foldl (insertOne fmt fp S srcKeys) st).content ↔
      k' ∈ keysOf st.content ∨ k' ∈ ms := by
  rw [mem_keysOf]
  constructor
  · rintro ⟨e, he, hk⟩
    rcases (insFold_content_mem fmt fp S srcKeys e ms st).mp he with h | ⟨k0, hk0, he0⟩
    · exact Or.inl (mem_keysOf.mpr ⟨e, h, hk⟩)
    · subst he0
      rw [mkMissingEntry_key] at hk
      exact Or.inr (hk ▸ hk0)
  · rintro (h | h)
    · rcases mem_keysOf.mp h with ⟨e, he, hk⟩
      exact ⟨e, (insFold_content_mem fmt fp S srcKeys e ms st).mpr (Or.inl he), hk⟩
    · refine ⟨mkMissingEntry fmt fp S k',
        (insFold_content_mem fmt fp S srcKeys _ ms st).mpr (Or.inr ⟨k', h, rfl⟩), rfl⟩

theorem refreshEntry_idem (fp : String → String) (S : List Entry) (k : String) (e : Entry) :
    (refreshEntry fp S k { e with hash := some (fp (srcVal S k)) }) =
      { e with hash := some (fp (srcVal S k)) } := by
  rw [refreshEntry]
  split <;> rfl

theorem refreshFoldGen (fp : String → String) (S : List Entry) (cond : String → Bool) :
    ∀ (ks : List String) (c : List Entry),
      ks.foldl (fun c k => if cond k then c.map (refreshEntry fp S k) else c) c =
        c.map (fun e =>
          if decide (e.key ∈ ks) && cond e.key then
            { e with hash := some (fp (srcVal S e.key)) } else e) := by
  intro ks
  induction ks with
  | nil =>
    intro c
    simp
  | cons k ks ih =>
    intro c
    rw [List.foldl_cons]
    by_cases hc : cond k = true
    · rw [if_pos hc, ih, List.map_map]
      apply List.map_congr_left
      intro e _
      by_cases h1 : e.key = k
      · subst h1
        by_cases h2 : e.key ∈ ks <;>
          simp [Function.comp, refreshEntry, h2, hc]
      · by_cases h2 : e.key ∈ ks <;>
          simp [Function.comp, refreshEntry, h1, h2]
    · rw [if_neg hc, ih]
      apply List.map_congr_left
      intro e _
      by_cases h1 : e.key = k
      · subst h1
        simp [hc]
      · by_cases h2 : e.key ∈ ks <;> simp [h1, h2]

/-- Boolean guard of the hash-refresh loop expressed per key. -/
def refreshQ (S T : List Entry) (missing stale : List String)
    (k : String) : Bool :=
  decide (k ∈ keysOf S) && (decide (k ∈ keysOf T) && decide (k ∉ missing) &&
    shouldAddHash T stale k)

theorem refreshFold_eq_map (fp : String → String) (S T : List Entry)
    (missing stale : List String) (c : List Entry) :
    refreshFold fp S T missing stale c =
      c.map (fun e =>
        if refreshQ S T missing stale e.key then
          { e with hash := some (fp (srcVal S e.key)) } else e) := by
  rw [refreshFold, refreshFoldGen]
  apply List.map_congr_left
  intro e _
  have hd : decide (e.key ∈ dictKeys S) = decide (e.key ∈ keysOf S) :=
    decide_eq_decide.mpr mem_dictKeys
  rw [refreshQ, hd]

theorem getLast?_map_entry (F : Entry → Entry) :
    ∀ (l : List Entry), (l.map F).getLast? = l.getLast?.map F := by
  intro l
  induction l with
  | nil => rfl
  | cons x l ih =>
    cases l with
    | nil => rfl
    | cons y l =>
      rw [List.map_cons, List.map_cons, List.getLast?_cons_cons, ← List.map_cons]
      exact ih

theorem filter_map_keyPres (F : Entry → Entry) (hF : ∀ e, (F e).key = e.key)
    (k : String) :
    ∀ (c : List Entry),
      (c.map F).filter (fun e => e.key = k) = (c.filter (fun e => e.key = k)).map F := by
  intro c
  induction c with
  | nil => rfl
  | cons x c ih =>
    rw [List.map_cons, List.filter_cons, List.filter_cons, hF x]
    by_cases hx : x.key = k <;> simp [hx, ih]

theorem lookupLast_map_keyPres (F : Entry → Entry) (hF : ∀ e, (F e).key = e.key)
    (c : List Entry) (k : String) :
    lookupLast (c.map F) k = (lookupLast c k).map F := by
  rw [lookupLast, lookupLast, filter_map_keyPres F hF, getLast?_map_entry]

theorem keysOf_map_keyPres (F : Entry → Entry) (hF : ∀ e, (F e).key = e.key)
    (c : List Entry) : keysOf (c.map F) = keysOf c := by
  rw [keysOf, keysOf, List.map_map]
  exact List.map_congr_left (fun e _ => hF e)

theorem refreshMapFun_key (S : List Entry) (fp : String → String) (Q : String → Bool)
    (e : Entry) :
    ((fun e => if Q e.key then { e with hash := some (fp (srcVal S e.key)) } else e) e).key
      = e.key := by
  by_cases h : Q e.key = true <;> simp [h]

theorem mem_syncMissing {S T : List Entry} {k : String} :
    k ∈ syncMissing S T ↔ k ∈ keysOf S ∧ k ∉ keysOf T := by
  simp [syncMissing, List.mem_filter]

theorem syncStale_texts (fp : String → String) (S T : List Entry) :
    syncStale .texts fp S T = [] := rfl

theorem mem_syncStale_elements {fp : String → String} {S T : List Entry} {k : String} :
    k ∈ syncStale .elements fp S T ↔
      k ∈ keysOf S ∧ ∃ et, lookupLast T k = some et ∧
        et.hash ≠ some (fp (srcVal S k)) ∧ startsWithStr untransMark et.value = false := by
  rw [syncStale, if_pos rfl, List.mem_filter]
  cases hlt : lookupLast T k with
  | none => simp [hlt]
  | some et => simp [hlt]

theorem not_mem_syncStale_of_not_mem_target {fp : String → String} {S T : List Entry}
    {k : String} (h : k ∉ keysOf T) : k ∉ syncStale .elements fp S T := by
  intro hs
  rcases mem_syncStale_elements.mp hs with ⟨_, et, hlt, _, _⟩
  exact h (mem_keysOf.mpr ⟨et, lookupLast_mem hlt, lookupLast_key hlt⟩)

/-- C3: under the elements dialect the sync classification marks a source
key Stale exactly when it is present in the target and the last target
occurrence has a hash differing from the fingerprint of the source value
(an absent hash differs) and a value that does not start with the
untranslated marker; a marker-carrying value is never Stale regardless of
its hash, and no key is both Missing and Stale in the same run. -/
theorem C3_stale_classification (fp : String → String) (S T : List Entry) (k : String) :
    (k ∈ syncStale .elements fp S T ↔
      k ∈ keysOf S ∧ ∃ et, lookupLast T k = some et ∧
        et.hash ≠ some (fp (srcVal S k)) ∧ startsWithStr untransMark et.value = false) ∧
    (∀ et, lookupLast T k = some et → startsWithStr untransMark et.value = true →
      k ∉ syncStale .elements fp S T) ∧
    (k ∈ syncMissing S T → k ∉ syncStale .elements fp S T) := by
  refine ⟨mem_syncStale_elements, ?_, ?_⟩
  · intro et hlt hst hmem
    rcases mem_syncStale_elements.mp hmem with ⟨_, et', hlt', _, hst'⟩
    rw [hlt] at hlt'
    cases hlt'
    rw [hst] at hst'
    cases hst'
  · intro hm
    exact not_mem_syncStale_of_not_mem_target (mem_syncMissing.mp hm).2

/-- C3 witness: a present key with a mismatching hash and no marker is
Stale; a missing key is not Stale. -/
theorem C3_stale_classification_witness :
    ("a" ∈ syncStale .elements mockFp [⟨"a", "Hello", none⟩]
      [⟨"a", "Bonjour", some "h1"⟩]) ∧
    ("b" ∉ syncStale .elements mockFp [⟨"b", "x", none⟩] ([] : List Entry)) := by
  constructor
  · exact (C3_stale_classification mockFp [⟨"a", "Hello", none⟩]
      [⟨"a", "Bonjour", some "h1"⟩] "a").1.mpr
      ⟨by simp [keysOf], ⟨"a", "Bonjour", some "h1"⟩, rfl, by decide, by decide⟩
  · exact (C3_stale_classification mockFp [⟨"b", "x", none⟩] [] "b").2.2
      (mem_syncMissing.mpr ⟨by simp [keysOf], by simp [keysOf]⟩)

theorem syncTarget_elements_content (fp : String → String) (S T : List Entry) :
    (syncTarget .elements fp S T).content
      = ((syncMissing S T).foldl (insertOne .elements fp S (keysOf S))
            ⟨T, keysOf T, 0⟩).content.map
          (fun e =>
            if refreshQ S T (syncMissing S T) (syncStale .elements fp S T) e.key then
              { e with hash := some (fp (srcVal S e.key)) } else e) := by
  simp [syncTarget, refreshFold_eq_map]

theorem syncTarget_texts_content (fp : String → String) (S T : List Entry) :
    (syncTarget .texts fp S T).content
      = ((syncMissing S T).foldl (insertOne .texts fp S (keysOf S))
            ⟨T, keysOf T, 0⟩).content := by
  simp [syncTarget]

theorem syncTarget_added (fmt : Fmt) (fp : String → String) (S T : List Entry) :
    (syncTarget fmt fp S T).added = (syncMissing S T).length := by
  simp only [syncTarget]
  rw [insFold_added]
  simp

/-- C2 (amended): after an elements-dialect sync run, every entry of the
output whose key is a source key carries hash = fingerprint(source value),
with the sole exception of keys classified Stale in this run (hash mismatch
and no untranslated marker) whose last pre-run target occurrence has a
truthy hash attribute: such entries are left entirely unchanged, their old
hash preserved.  A marker-carrying value is never classified Stale, so the
exception stated by the original claim is empty. -/
theorem C2_hash_contract (fp : String → String) (S T : List Entry) (e : Entry)
    (he : e ∈ (syncTarget .elements fp S T).content) (hkS : e.key ∈ keysOf S) :
    (¬ (e.key ∈ syncStale .elements fp S T ∧
        truthy ((lookupLast T e.key).bind Entry.hash) = true) →
      e.hash = some (fp (srcVal S e.key))) ∧
    (e.key ∈ syncStale .elements fp S T →
      truthy ((lookupLast T e.key).bind Entry.hash) = true → e ∈ T) := by
  rw [syncTarget_elements_content] at he
  rcases List.mem_map.mp he with ⟨e0, he0, hFR⟩
  have hkey : e.key = e0.key := by
    rw [← hFR]
    exact refreshMapFun_key S fp _ e0
  rcases (insFold_content_mem .elements fp S (keysOf S) e0 (syncMissing S T)
      ⟨T, keysOf T, 0⟩).mp he0 with hT | ⟨k0, hk0, hmk⟩
  · -- e0 is an original entry of T
    have hkT : e.key ∈ keysOf T := mem_keysOf.mpr ⟨e0, hT, hkey.symm⟩
    have hnm : e.key ∉ syncMissing S T := by
      intro hm
      exact (mem_syncMissing.mp hm).2 hkT
    rcases lookupLast_isSome_of_mem hkT with ⟨et, hlt⟩
    constructor
    · intro hns
      have hsa : shouldAddHash T (syncStale .elements fp S T) e.key = true := by
        rw [shouldAddHash, hlt]
        by_cases hst : e.key ∈ syncStale .elements fp S T
        · have hth : truthy et.hash = false := by
            rcases Bool.eq_false_or_eq_true (truthy et.hash) with h | h
            · exact absurd ⟨hst, by rw [hlt]; exact h⟩ hns
            · exact h
          rcases mem_syncStale_elements.mp hst with ⟨_, et', hlt', _, hsw⟩
          rw [hlt] at hlt'
          cases hlt'
          simp [hth, hsw]
        · simp [hst]
      have hQ : refreshQ S T (syncMissing S T) (syncStale .elements fp S T) e0.key
          = true := by
        rw [refreshQ, ← hkey]
        simp [hkS, hkT, hnm, hsa]
      rw [if_pos hQ] at hFR
      rw [← hFR]
    · intro hst hth
      rw [hlt] at hth
      have hth' : truthy et.hash = true := hth
      have hsa : shouldAddHash T (syncStale .elements fp S T) e.key = false := by
        rw [shouldAddHash, hlt]
        simp [hst, hth']
      have hQ : refreshQ S T (syncMissing S T) (syncStale .elements fp S T) e0.key
          = false := by
        rw [refreshQ, ← hkey]
        simp [hsa]
      rw [if_neg (by simp [hQ])] at hFR
      rw [← hFR]
      exact hT
  · -- e0 is a newly inserted entry for the missing key k0
    have hkk : e.key = k0 := by
      rw [hkey, hmk, mkMissingEntry_key]
    have hkT : e.key ∉ keysOf T := by
      rw [hkk]
      exact (mem_syncMissing.mp hk0).2
    have hQ : refreshQ S T (syncMissing S T) (syncStale .elements fp S T) e0.key
        = false := by
      rw [refreshQ, ← hkey]
      simp [hkT]
    constructor
    · intro _
      rw [if_neg (by simp [hQ])] at hFR
      rw [← hFR, hmk]
      have hsk : (mkMissingEntry Fmt.elements fp S k0).key = k0 := mkMissingEntry_key ..
      rw [hsk, mkMissingEntry, format_entry]
      simp
    · intro hst _
      exact absurd hst (not_mem_syncStale_of_not_mem_target hkT)

/-- C2 counterexample: a genuinely stale entry (hash mismatch, no marker)
keeps its old hash after sync, so its stored hash does not equal the source
fingerprint even though its value does not carry the untranslated marker
and hence falls outside the exception stated by the claim. -/
theorem C2_counterexample :
    (syncTarget .elements mockFp [⟨"a", "Hello", none⟩]
        [⟨"a", "Bonjour", some "h1"⟩]).content
      = [⟨"a", "Bonjour", some "h1"⟩] ∧
    startsWithStr untransMark "Bonjour" = false ∧
    some "h1" ≠ some (mockFp "Hello") :=
  ⟨rfl, rfl, by decide⟩

/-- C2 witness: a freshly inserted entry carries the source fingerprint as
its hash. -/
theorem C2_hash_contract_witness :
    (⟨"a", "[EN] Hello", some (mockFp "Hello")⟩ : Entry).hash
      = some (mockFp (srcVal [⟨"a", "Hello", none⟩] "a")) :=
  (C2_hash_contract mockFp [⟨"a", "Hello", none⟩] []
      ⟨"a", "[EN] Hello", some (mockFp "Hello")⟩ (by decide) (by decide)).1
    (by decide)

/- ------------------------------------------------------------------
Insertion placement (claim C7).
------------------------------------------------------------------ -/

/-- Modelled on the words of the spec, section 4.4 step 3: the nearest
source-ordered predecessor of the missing key that is present in the target
key set, found by walking the source ordered-key list backward from the
missing key. -/
def specNearestPred (srcKeys langKeys : List String) (k : String) : Option String :=
  ((srcKeys.take (srcKeys.findIdx (fun x => x = k))).reverse).find?
    (fun p => decide (p ∈ langKeys))

theorem findPredPos_spec (content : List Entry) (langKeys : List String)
    (hsub : ∀ p ∈ langKeys, p ∈ keysOf content) :
    ∀ l : List String,
      (l.find? (fun p => decide (p ∈ langKeys)) = none →
        findPredPos content langKeys l = none) ∧
      (∀ p, l.find? (fun p => decide (p ∈ langKeys)) = some p →
        ∃ i, firstIdxKey content p = some i ∧
          findPredPos content langKeys l = some (i + 1)) := by
  intro l
  induction l with
  | nil => exact ⟨fun _ => rfl, fun p h => by cases h⟩
  | cons q rest ih =>
    by_cases hq : q ∈ langKeys
    · constructor
      · intro hn
        rw [List.find?_cons_of_pos _ (by simpa using hq)] at hn
        cases hn
      · intro p hp
        rw [List.find?_cons_of_pos _ (by simpa using hq)] at hp
        cases hp
        have hqc : q ∈ keysOf content := hsub q hq
        have hidx : ∃ i, firstIdxKey content q = some i := by
          rw [firstIdxKey]
          rcases mem_keysOf.mp hqc with ⟨e, he, hk⟩
          have : (content.findIdx? fun e => decide (e.key = q)).isSome := by
            rw [List.findIdx?_isSome]
            exact List.any_eq_true.mpr ⟨e, he, by simpa using hk⟩
          exact Option.isSome_iff_exists.mp this
        rcases hidx with ⟨i, hi⟩
        refine ⟨i, hi, ?_⟩
        rw [findPredPos, if_pos hq, hi]
    · constructor
      · intro hn
        rw [List.find?_cons_of_neg _ (by simpa using hq)] at hn
        rw [findPredPos, if_neg hq]
        exact (ih).1 hn
      · intro p hp
        rw [List.find?_cons_of_neg _ (by simpa using hq)] at hp
        rcases (ih).2 p hp with ⟨i, hi, hpos⟩
        refine ⟨i, hi, ?_⟩
        rw [findPredPos, if_neg hq]
        exact hpos

/-- C7: with source exactly {a: "Hello"} and an empty target, sync produces
exactly one target entry for a with value "[EN] Hello" and hash equal to
fingerprint("Hello"); and in general find_insert_position places a missing
key immediately after the first serialized occurrence of its nearest
source-ordered predecessor present in the target key set, or at the end of
the entry list (just before the closing container tag) when no predecessor
is present. -/
theorem C7_missing_insertion :
    (∀ (fp : String → String) (h : Option String),
      syncTarget .elements fp [⟨"a", "Hello", h⟩] [] =
        ⟨[⟨"a", "[EN] Hello", some (fp "Hello")⟩], 1⟩) ∧
    (∀ (content : List Entry) (k : String) (srcKeys langKeys : List String),
      (∀ p ∈ langKeys, p ∈ keysOf content) →
      (∀ p, specNearestPred srcKeys langKeys k = some p →
        ∃ i, firstIdxKey content p = some i ∧
          find_insert_position content k srcKeys langKeys = i + 1) ∧
      (specNearestPred srcKeys langKeys k = none →
        find_insert_position content k srcKeys langKeys = content.length)) := by
  constructor
  · intro fp h
    rfl
  · intro content k srcKeys langKeys hsub
    constructor
    · intro p hp
      rcases (findPredPos_spec content langKeys hsub
          ((srcKeys.take (srcKeys.findIdx (fun x => x = k))).reverse)).2 p hp with
        ⟨i, hi, hpos⟩
      refine ⟨i, hi, ?_⟩
      rw [find_insert_position]
      rw [hpos]
    · intro hn
      rw [find_insert_position,
        (findPredPos_spec content langKeys hsub _).1 hn]

/-- C7 witness: the scenario at the concrete fingerprint, and the general
placement statement at a one-entry target where the predecessor of the
missing key a is b. -/
theorem C7_missing_insertion_witness :
    syncTarget .elements mockFp [⟨"a", "Hello", none⟩] [] =
      ⟨[⟨"a", "[EN] Hello", some (mockFp "Hello")⟩], 1⟩ ∧
    find_insert_position [⟨"b", "x", none⟩] "a" ["b", "a"] ["b"] = 1 := by
  constructor
  · exact C7_missing_insertion.1 mockFp none
  · have h := (C7_missing_insertion.2 [⟨"b", "x", none⟩] "a" ["b", "a"] ["b"]
      (by intro p hp; simp [keysOf]; simpa using hp)).1 "b" rfl
    rcases h with ⟨i, hi, hpos⟩
    have hi0 : firstIdxKey [(⟨"b", "x", none⟩ : Entry)] "b" = some 0 := rfl
    rw [hi0] at hi
    cases hi
    exact hpos

/- ------------------------------------------------------------------
Classification chain of the read-only commands (claims C8, C10).
------------------------------------------------------------------ -/

/-- Buckets a present key can fall into for the read-only commands. -/
inductive PresentClass where
  | untranslated
  | stale
  | translated
deriving DecidableEq, Repr

/-- Classification chain applied to a present key by check_sync (lang_sync.py
lines 888-895), show_status (lines 1038-1047) and generate_report (lines
1121-1135), textually identical in the three commands: marker first, then
exact match against the source value modulo the format-only and cognate
heuristics, then hash staleness, which requires a TRUTHY stored hash, else
translated. -/
def classifyPresent (fp : String → String) (fOnly cogn : String → Bool)
    (fmt : Fmt) (sv : String) (e : Entry) : PresentClass :=
  if startsWithStr untransMark e.value then .untranslated
  else if decide (e.value = sv) && !(fOnly sv) && !(cogn sv) then .untranslated
  else if decide (fmt = .elements) && truthy e.hash &&
      decide (e.hash ≠ some (fp sv)) then .stale
  else .translated

/-- Classification of a source key against a target: none when the key is
missing from the target, otherwise the chain above applied to the last
occurrence (the entries dict lookup). -/
def viewClass (fp : String → String) (fOnly cogn : String → Bool) (fmt : Fmt)
    (S T : List Entry) (k : String) : Option PresentClass :=
  match lookupLast T k with
  | none => none
  | some e => some (classifyPresent fp fOnly cogn fmt (srcVal S k) e)

/-- Stale list of the check command (lang_sync.py line 895). -/
def checkStaleKeys (fp : String → String) (fOnly cogn : String → Bool) (fmt : Fmt)
    (S T : List Entry) : List String :=
  (dictKeys S).filter (fun k =>
    decide (viewClass fp fOnly cogn fmt S T k = some .stale))

/-- Stale count source of the status command (lang_sync.py lines 1044-1045). -/
def statusStaleKeys (fp : String → String) (fOnly cogn : String → Bool) (fmt : Fmt)
    (S T : List Entry) : List String :=
  (dictKeys S).filter (fun k =>
    decide (viewClass fp fOnly cogn fmt S T k = some .stale))

/-- Stale list of the report command (lang_sync.py lines 1127-1133). -/
def reportStaleKeys (fp : String → String) (fOnly cogn : String → Bool) (fmt : Fmt)
    (S T : List Entry) : List String :=
  (dictKeys S).filter (fun k =>
    decide (viewClass fp fOnly cogn fmt S T k = some .stale))

/-- Translated list of the report command (lang_sync.py line 1135); the
status command counts the same keys as translated (line 1047). -/
def reportTranslatedKeys (fp : String → String) (fOnly cogn : String → Bool) (fmt : Fmt)
    (S T : List Entry) : List String :=
  (dictKeys S).filter (fun k =>
    decide (viewClass fp fOnly cogn fmt S T k = some .translated))

/-- C8 counterexample: a duplicated key whose FIRST occurrence carries the
untranslated marker but whose last occurrence is a plain value with a
mismatching hash IS classified Stale by sync, which is impossible under
first-occurrence comparison: the comparisons use the last occurrence. -/
theorem C8_counterexample :
    lookupFirst [⟨"k", "[EN] Hi", some "zz"⟩, ⟨"k", "Salut", some "zz"⟩] "k"
      = some ⟨"k", "[EN] Hi", some "zz"⟩ ∧
    startsWithStr untransMark "[EN] Hi" = true ∧
    syncStale .elements mockFp [⟨"k", "Hi", none⟩]
      [⟨"k", "[EN] Hi", some "zz"⟩, ⟨"k", "Salut", some "zz"⟩] = ["k"] :=
  ⟨rfl, rfl, rfl⟩

/-- C8 (amended): for every parsed file in which a key appears more than
once, the value used for all comparison purposes is the LAST occurrence of
the key: sync staleness and the classification chain of the read-only
commands are determined by the last occurrence. -/
theorem C8_last_occurrence_wins (fp : String → String) (fOnly cogn : String → Bool)
    (fmt : Fmt) (S T : List Entry) (k : String) (et : Entry)
    (hlt : lookupLast T k = some et) :
    (k ∈ syncStale .elements fp S T ↔
      k ∈ keysOf S ∧ et.hash ≠ some (fp (srcVal S k)) ∧
        startsWithStr untransMark et.value = false) ∧
    viewClass fp fOnly cogn fmt S T k
      = some (classifyPresent fp fOnly cogn fmt (srcVal S k) et) := by
  constructor
  · rw [mem_syncStale_elements]
    constructor
    · rintro ⟨hS, et', hlt', h1, h2⟩
      rw [hlt] at hlt'
      cases hlt'
      exact ⟨hS, h1, h2⟩
    · rintro ⟨hS, h1, h2⟩
      exact ⟨hS, et, hlt, h1, h2⟩
  · rw [viewClass, hlt]

/-- C8 witness: the amended theorem applied to the duplicated-key file of
the counterexample, concluding that the key is Stale because its last
occurrence mismatches, although the first occurrence carries the marker. -/
theorem C8_last_occurrence_wins_witness :
    "k" ∈ syncStale .elements mockFp [⟨"k", "Hi", none⟩]
      [⟨"k", "[EN] Hi", some "zz"⟩, ⟨"k", "Salut", some "zz"⟩] :=
  ((C8_last_occurrence_wins mockFp (fun _ => false) (fun _ => false) .elements
      [⟨"k", "Hi", none⟩]
      [⟨"k", "[EN] Hi", some "zz"⟩, ⟨"k", "Salut", some "zz"⟩] "k"
      ⟨"k", "Salut", some "zz"⟩ rfl).1).mpr ⟨by decide, by decide, rfl⟩

/-- C10: an elements-dialect target entry with NO hash attribute, a value
without the untranslated marker and a value differing from the source value
is never classified Stale by check, status or report (it counts as
translated there), while the sync classification counts the same key as
Stale: sync treats a missing hash as a mismatch, the read-only chain
requires a truthy stored hash. -/
theorem C10_hashless_stale_divergence (fp : String → String)
    (fOnly cogn : String → Bool) (S T : List Entry) (k : String) (et : Entry)
    (hkS : k ∈ keysOf S) (hlt : lookupLast T k = some et)
    (hh : et.hash = none) (hm : startsWithStr untransMark et.value = false)
    (hv : et.value ≠ srcVal S k) :
    k ∉ checkStaleKeys fp fOnly cogn .elements S T ∧
    k ∉ statusStaleKeys fp fOnly cogn .elements S T ∧
    k ∉ reportStaleKeys fp fOnly cogn .elements S T ∧
    k ∈ reportTranslatedKeys fp fOnly cogn .elements S T ∧
    k ∈ syncStale .elements fp S T := by
  have hclass : classifyPresent fp fOnly cogn .elements (srcVal S k) et
      = .translated := by
    rw [classifyPresent, if_neg (by simp [hm]), if_neg (by simp [hv]),
      if_neg (by simp [hh, truthy])]
  have hvc : viewClass fp fOnly cogn .elements S T k = some .translated := by
    rw [viewClass, hlt]
    simp [hclass]
  refine ⟨?_, ?_, ?_, ?_, ?_⟩
  · intro hmem
    rcases List.mem_filter.mp hmem with ⟨_, hdec⟩
    rw [hvc] at hdec
    simp at hdec
  · intro hmem
    rcases List.mem_filter.mp hmem with ⟨_, hdec⟩
    rw [hvc] at hdec
    simp at hdec
  · intro hmem
    rcases List.mem_filter.mp hmem with ⟨_, hdec⟩
    rw [hvc] at hdec
    simp at hdec
  · exact List.mem_filter.mpr ⟨mem_dictKeys.mpr hkS, by rw [hvc]; simp⟩
  · exact mem_syncStale_elements.mpr ⟨hkS, et, hlt, by rw [hh]; simp, hm⟩

/-- C10 witness: the divergence at a concrete hashless entry. -/
theorem C10_hashless_stale_divergence_witness :
    "k" ∉ checkStaleKeys mockFp (fun _ => false) (fun _ => false) .elements
      [⟨"k", "A", none⟩] [⟨"k", "B", none⟩] ∧
    "k" ∉ statusStaleKeys mockFp (fun _ => false) (fun _ => false) .elements
      [⟨"k", "A", none⟩] [⟨"k", "B", none⟩] ∧
    "k" ∉ reportStaleKeys mockFp (fun _ => false) (fun _ => false) .elements
      [⟨"k", "A", none⟩] [⟨"k", "B", none⟩] ∧
    "k" ∈ reportTranslatedKeys mockFp (fun _ => false) (fun _ => false) .elements
      [⟨"k", "A", none⟩] [⟨"k", "B", none⟩] ∧
    "k" ∈ syncStale .elements mockFp [⟨"k", "A", none⟩] [⟨"k", "B", none⟩] :=
  C10_hashless_stale_divergence mockFp (fun _ => false) (fun _ => false)
    [⟨"k", "A", none⟩] [⟨"k", "B", none⟩] "k" ⟨"k", "B", none⟩
    (by decide) rfl rfl rfl (by decide)

/- ------------------------------------------------------------------
Detection preludes of the five commands (claim C5).

The working directory is modelled as the listing of its files, each a pair
of name and raw content, in directory order.
------------------------------------------------------------------ -/

/-- Substring containment over character lists (the Python `in` operator on
strings). -/
def containsSub (needle hay : List Char) : Bool :=
  hay.tails.any (fun t => needle.isPrefixOf t)

/-- auto_detect_xml_format (lang_sync.py lines 425-435) under the default
auto configuration: elements when the content contains the elements entry
marker, texts when it contains the texts marker, none otherwise. -/
def auto_detect_xml_format (content : String) : Option Fmt :=
  if containsSub "<e k=\"".toList content.toList then some .elements
  else if containsSub "<text name=\"".toList content.toList then some .texts
  else none

def isLowerAlpha (c : Char) : Bool := 'a' ≤ c && c ≤ 'z'

/-- Tail of a language file name after the convention and the underscore:
two letters then the xml extension (the anchored regex [a-z]{2}\.xml$). -/
def twoLetterXmlTail : List Char → Bool
  | [c1, c2, '.', 'x', 'm', 'l'] => isLowerAlpha c1 && isLowerAlpha c2
  | _ => false

/-- Case-insensitive match of one naming convention against one directory
entry (re.match of ^pre_[a-z]{2}\.xml$ with IGNORECASE). -/
def matchesLangFile (preU : String) (name : String) : Bool :=
  let n := name.toList.map Char.toLower
  preU.toList.isPrefixOf n && twoLetterXmlTail (n.drop preU.toList.length)

/-- CONFIG sourceLanguage (lang_sync.py line 108). -/
def sourceLanguage : String := "en"

/-- Name of the source-language file under a naming convention. -/
def sourceName (pre : String) : String := pre ++ "_" ++ sourceLanguage ++ ".xml"

/-- Fallback directory scan of auto_detect_file_prefix (lang_sync.py lines
414-420): for each directory entry in order, the three conventions are
tried in order. -/
def scanPre : List String → Option String
  | [] => none
  | f :: rest =>
    if matchesLangFile "lang_" f then some "lang"
    else if matchesLangFile "translation_" f then some "translation"
    else if matchesLangFile "l10n_" f then some "l10n"
    else scanPre rest

/-- auto_detect_file_prefix (lang_sync.py lines 401-422) under the default
auto configuration: exact existence checks of the three source files in
priority order, then the per-entry fallback scan. -/
def auto_detect_file_pre (files : List (String × String)) : Option String :=
  if files.any (fun f => decide (f.1 = sourceName "lang")) then some "lang"
  else if files.any (fun f => decide (f.1 = sourceName "translation")) then
    some "translation"
  else if files.any (fun f => decide (f.1 = sourceName "l10n")) then some "l10n"
  else scanPre (files.map (·.1))

/-- Content lookup by exact file name. -/
def findFile (files : List (String × String)) (name : String) : Option String :=
  (files.find? (fun f => decide (f.1 = name))).map (·.2)

/-- Outcome of the detection prelude a command runs before touching any
language file: a graceful sys.exit(1) on a failed convention detection, a
graceful sys.exit(1) on a missing source file, sync's graceful sys.exit(1)
on a failed dialect detection, an uncaught read error (status and report
open the source file without an existence check), or proceeding to parse
with the detected dialect, possibly none. -/
inductive DetectOutcome where
  | exitNoPre
  | exitNoSource
  | exitNoFormat
  | crashRead
  | proceeds (fmt : Option Fmt)
deriving DecidableEq, Repr

/-- Detection prelude of sync_translations (lang_sync.py lines 574-591):
the only command that aborts when no dialect is recognized. -/
def syncDetect (files : List (String × String)) : DetectOutcome :=
  match auto_detect_file_pre files with
  | none => .exitNoPre
  | some pre =>
    match findFile files (sourceName pre) with
    | none => .exitNoSource
    | some content =>
      match auto_detect_xml_format content with
      | none => .exitNoFormat
      | some fmt => .proceeds (some fmt)

/-- Detection prelude of check_sync (lang_sync.py lines 834-847): the
dialect detection result is not checked before parsing. -/
def checkDetect (files : List (String × String)) : DetectOutcome :=
  match auto_detect_file_pre files with
  | none => .exitNoPre
  | some pre =>
    match findFile files (sourceName pre) with
    | none => .exitNoSource
    | some content => .proceeds (auto_detect_xml_format content)

/-- Detection prelude of show_status (lang_sync.py lines 984-992): no source
existence check before the open call, and no dialect check. -/
def statusDetect (files : List (String × String)) : DetectOutcome :=
  match auto_detect_file_pre files with
  | none => .exitNoPre
  | some pre =>
    match findFile files (sourceName pre) with
    | none => .crashRead
    | some content => .proceeds (auto_detect_xml_format content)

/-- Detection prelude of generate_report (lang_sync.py lines 1074-1082):
same shape as the status command. -/
def reportDetect (files : List (String × String)) : DetectOutcome :=
  match auto_detect_file_pre files with
  | none => .exitNoPre
  | some pre =>
    match findFile files (sourceName pre) with
    | none => .crashRead
    | some content => .proceeds (auto_detect_xml_format content)

/-- Detection prelude of validate_sync (lang_sync.py lines 1205-1218): the
dialect detection result is not checked before parsing. -/
def validateDetect (files : List (String × String)) : DetectOutcome :=
  match auto_detect_file_pre files with
  | none => .exitNoPre
  | some pre =>
    match findFile files (sourceName pre) with
    | none => .exitNoSource
    | some content => .proceeds (auto_detect_xml_format content)

/-- C5 counterexample: with a source file whose content carries neither
dialect marker, the check command does not abort on the failed dialect
detection; it proceeds to parse with no dialect recognized (the parser then
runs with the texts pattern).  The same holds for status, report and
validate. -/
theorem C5_counterexample :
    checkDetect [("lang_en.xml", "<l10n></l10n>")] = .proceeds none ∧
    checkDetect [("lang_en.xml", "<l10n></l10n>")] ≠ .exitNoFormat ∧
    validateDetect [("lang_en.xml", "<l10n></l10n>")] = .proceeds none :=
  ⟨rfl, by decide, rfl⟩

/-- C5 (amended): every command aborts when no naming convention is
detected; on a missing source file sync, check and validate abort
gracefully while status and report fail by an unhandled read error; but
only sync treats a failed dialect detection as fatal: check, status,
report and validate proceed to parse with no dialect recognized. -/
theorem C5_detection_fatality (files : List (String × String)) :
    (auto_detect_file_pre files = none →
      syncDetect files = .exitNoPre ∧ checkDetect files = .exitNoPre ∧
      statusDetect files = .exitNoPre ∧ reportDetect files = .exitNoPre ∧
      validateDetect files = .exitNoPre) ∧
    (∀ pre, auto_detect_file_pre files = some pre →
      findFile files (sourceName pre) = none →
      syncDetect files = .exitNoSource ∧ checkDetect files = .exitNoSource ∧
      statusDetect files = .crashRead ∧ reportDetect files = .crashRead ∧
      validateDetect files = .exitNoSource) ∧
    (∀ pre content, auto_detect_file_pre files = some pre →
      findFile files (sourceName pre) = some content →
      auto_detect_xml_format content = none →
      syncDetect files = .exitNoFormat ∧
      checkDetect files = .proceeds none ∧
      statusDetect files = .proceeds none ∧
      reportDetect files = .proceeds none ∧
      validateDetect files = .proceeds none) := by
  refine ⟨?_, ?_, ?_⟩
  · intro hpre
    refine ⟨?_, ?_, ?_, ?_, ?_⟩ <;>
      simp [syncDetect, checkDetect, statusDetect, reportDetect, validateDetect, hpre]
  · intro pre hpre hsrc
    refine ⟨?_, ?_, ?_, ?_, ?_⟩ <;>
      simp [syncDetect, checkDetect, statusDetect, reportDetect, validateDetect,
        hpre, hsrc]
  · intro pre content hpre hsrc hfmt
    refine ⟨?_, ?_, ?_, ?_, ?_⟩ <;>
      simp [syncDetect, checkDetect, statusDetect, reportDetect, validateDetect,
        hpre, hsrc, hfmt]

/-- C5 witness: the amended theorem applied to the marker-free directory of
the counterexample. -/
theorem C5_detection_fatality_witness :
    syncDetect [("lang_en.xml", "<l10n></l10n>")] = .exitNoFormat ∧
    statusDetect [("lang_en.xml", "<l10n></l10n>")] = .proceeds none :=
  ⟨((C5_detection_fatality [("lang_en.xml", "<l10n></l10n>")]).2.2 "lang"
      "<l10n></l10n>" rfl rfl rfl).1,
   ((C5_detection_fatality [("lang_en.xml", "<l10n></l10n>")]).2.2 "lang"
      "<l10n></l10n>" rfl rfl rfl).2.2.1⟩

/- ------------------------------------------------------------------
Exit-code policy of the check command (claim C6).
------------------------------------------------------------------ -/

/-- Missing keys of one target as counted by check_sync (lang_sync.py lines
882-886): keys of the source entries dict absent from the target. -/
def viewMissingKeys (S t : List Entry) : List String :=
  (dictKeys S).filter (fun k => decide (k ∉ keysOf t))

/-- Orphaned keys of one target (lang_sync.py lines 897-899): every target
key occurrence absent from the source entries dict. -/
def viewOrphanKeys (S t : List Entry) : List String :=
  (keysOf t).filter (fun k => decide (k ∉ keysOf S))

/-- Per-language contribution to has_problems in check_sync: a missing file
(lang_sync.py lines 865-868) or any missing, duplicate or orphaned key
(lines 916-917).  Stale and untranslated entries do not contribute. -/
def checkLangProblem (S : List Entry) : Option (List Entry) → Bool
  | none => true
  | some t =>
    decide (0 < (viewMissingKeys S t).length) ||
    decide (0 < (duplicatesOf t).length) ||
    decide (0 < (viewOrphanKeys S t).length)

/-- Exit code of check_sync (lang_sync.py lines 947-970): 1 when
has_problems, 0 otherwise. -/
def checkExit (S : List Entry) (ts : List (Option (List Entry))) : Nat :=
  if ts.any (checkLangProblem S) then 1 else 0

theorem length_pos_filter_iff {α : Type} (l : List α) (p : α → Bool) :
    0 < (l.filter p).length ↔ ∃ x ∈ l, p x = true := by
  rw [List.length_pos_iff_exists_mem]
  constructor
  · rintro ⟨a, ha⟩
    rcases List.mem_filter.mp ha with ⟨h1, h2⟩
    exact ⟨a, h1, h2⟩
  · rintro ⟨a, h1, h2⟩
    exact ⟨a, List.mem_filter.mpr ⟨h1, h2⟩⟩

theorem checkLangProblem_iff (S : List Entry) (t? : Option (List Entry)) :
    checkLangProblem S t? = true ↔
      t? = none ∨ ∃ t, t? = some t ∧
        ((∃ k ∈ dictKeys S, k ∉ keysOf t) ∨ 0 < (duplicatesOf t).length ∨
          (∃ k ∈ keysOf t, k ∉ keysOf S)) := by
  cases t? with
  | none => simp [checkLangProblem]
  | some t =>
    rw [checkLangProblem]
    simp only [Bool.or_eq_true, decide_eq_true_eq, Option.some.injEq,
      reduceCtorEq, false_or, viewMissingKeys, viewOrphanKeys]
    rw [length_pos_filter_iff, length_pos_filter_iff (keysOf t)]
    constructor
    · rintro ((h | h) | h)
      · exact ⟨t, rfl, Or.inl (by simpa using h)⟩
      · exact ⟨t, rfl, Or.inr (Or.inl h)⟩
      · exact ⟨t, rfl, Or.inr (Or.inr (by simpa using h))⟩
    · rintro ⟨t', ht', (h | h | h)⟩
      · cases ht'
        exact Or.inl (Or.inl (by simpa using h))
      · cases ht'
        exact Or.inl (Or.inr h)
      · cases ht'
        exact Or.inr (by simpa using h)

/-- C6: the check command exits with failure status 1 exactly when some
target file does not exist or some target has at least one missing key, at
least one duplicate key or at least one orphaned key; a run where every
target exists and has no such defect (stale and untranslated entries alone)
exits with status 0. -/
theorem C6_check_exit_policy (S : List Entry) (ts : List (Option (List Entry))) :
    (checkExit S ts = 1 ↔
      ∃ t? ∈ ts, t? = none ∨ ∃ t, t? = some t ∧
        ((∃ k ∈ dictKeys S, k ∉ keysOf t) ∨ 0 < (duplicatesOf t).length ∨
          (∃ k ∈ keysOf t, k ∉ keysOf S))) ∧
    (checkExit S ts = 0 ↔
      ¬ ∃ t? ∈ ts, t? = none ∨ ∃ t, t? = some t ∧
        ((∃ k ∈ dictKeys S, k ∉ keysOf t) ∨ 0 < (duplicatesOf t).length ∨
          (∃ k ∈ keysOf t, k ∉ keysOf S))) := by
  have hmain : ts.any (checkLangProblem S) = true ↔
      ∃ t? ∈ ts, t? = none ∨ ∃ t, t? = some t ∧
        ((∃ k ∈ dictKeys S, k ∉ keysOf t) ∨ 0 < (duplicatesOf t).length ∨
          (∃ k ∈ keysOf t, k ∉ keysOf S)) := by
    rw [List.any_eq_true]
    constructor
    · rintro ⟨t?, ht, hp⟩
      exact ⟨t?, ht, (checkLangProblem_iff S t?).mp hp⟩
    · rintro ⟨t?, ht, hp⟩
      exact ⟨t?, ht, (checkLangProblem_iff S t?).mpr hp⟩
  constructor
  · rw [checkExit]
    by_cases hany : ts.any (checkLangProblem S) = true
    · rw [if_pos hany]
      exact ⟨fun _ => hmain.mp hany, fun _ => rfl⟩
    · rw [if_neg hany]
      exact ⟨fun h => absurd h (by omega), fun hp => absurd (hmain.mpr hp) hany⟩
  · rw [checkExit]
    by_cases hany : ts.any (checkLangProblem S) = true
    · rw [if_pos hany]
      exact ⟨fun h => absurd h (by omega), fun hp => absurd (hmain.mp hany) hp⟩
    · rw [if_neg hany]
      exact ⟨fun _ hp => absurd (hmain.mpr hp) hany, fun _ => rfl⟩

/-- C6 witness: a target with only a stale entry exits 0; a target with a
missing key exits 1. -/
theorem C6_check_exit_policy_witness :
    checkExit [⟨"a", "Hello", some "h2"⟩] [some [⟨"a", "Bonjour", some "h1"⟩]] = 0 ∧
    checkExit [⟨"a", "Hello", some "h2"⟩] [some ([] : List Entry)] = 1 :=
  ⟨(C6_check_exit_policy [⟨"a", "Hello", some "h2"⟩]
      [some [⟨"a", "Bonjour", some "h1"⟩]]).2.mpr (by decide),
   (C6_check_exit_policy [⟨"a", "Hello", some "h2"⟩] [some []]).1.mpr
      ⟨some [], by decide, Or.inr ⟨[], rfl, Or.inl ⟨"a", by decide, by decide⟩⟩⟩⟩

/- ------------------------------------------------------------------
Characterization and idempotence of the source hash refresh (claim C1).
------------------------------------------------------------------ -/

/-- Update condition of update_source_hashes per key: the dict entry (last
occurrence) has a recorded hash differing from the fingerprint of its
value. -/
def usCond (fp : String → String) (S : List Entry) (k : String) : Bool :=
  match lookupLast S k with
  | none => false
  | some e => decide (e.hash ≠ some (fp e.value))

theorem us_step_eq (fp : String → String) (S : List Entry) :
    (fun (acc : List Entry × Nat) k =>
      match lookupLast S k with
      | none => acc
      | some e =>
        if e.hash ≠ some (fp e.value) then
          (acc.1.map (refreshEntry fp S k), acc.2 + 1)
        else acc)
    = fun (acc : List Entry × Nat) k =>
        if usCond fp S k then (acc.1.map (refreshEntry fp S k), acc.2 + 1)
        else acc := by
  funext acc k
  rcases hlt : lookupLast S k with _ | e
  · simp [usCond, hlt]
  · by_cases hne : e.hash ≠ some (fp e.value)
    · simp [usCond, hlt, hne]
    · simp [usCond, hlt, hne]

theorem usFold_fst (fp : String → String) (S : List Entry) (cond : String → Bool) :
    ∀ (ks : List String) (c : List Entry) (n : Nat),
      (ks.foldl (fun (acc : List Entry × Nat) k =>
          if cond k then (acc.1.map (refreshEntry fp S k), acc.2 + 1) else acc)
        (c, n)).1
      = ks.foldl (fun c k => if cond k then c.map (refreshEntry fp S k) else c) c := by
  intro ks
  induction ks with
  | nil => intro c n; rfl
  | cons k ks ih =>
    intro c n
    rw [List.foldl_cons, List.foldl_cons]
    by_cases hc : cond k = true
    · rw [if_pos hc, if_pos hc]
      exact ih _ _
    · rw [if_neg hc, if_neg hc]
      exact ih _ _

theorem usFold_snd (fp : String → String) (S : List Entry) (cond : String → Bool) :
    ∀ (ks : List String) (c : List Entry) (n : Nat),
      (ks.foldl (fun (acc : List Entry × Nat) k =>
          if cond k then (acc.1.map (refreshEntry fp S k), acc.2 + 1) else acc)
        (c, n)).2
      = n + (ks.filter cond).length := by
  intro ks
  induction ks with
  | nil => intro c n; simp
  | cons k ks ih =>
    intro c n
    rw [List.foldl_cons, List.filter_cons]
    by_cases hc : cond k = true
    · rw [if_pos hc, hc, ih]
      simp
      omega
    · rw [if_neg hc, Bool.eq_false_iff.mpr hc, ih]
      simp

theorem update_source_hashes_fst (fp : String → String) (S : List Entry) :
    (update_source_hashes fp S).1
      = S.map (fun e =>
          if decide (e.key ∈ keysOf S) && usCond fp S e.key then
            { e with hash := some (fp (srcVal S e.key)) } else e) := by
  rw [update_source_hashes, us_step_eq, usFold_fst, refreshFoldGen]
  apply List.map_congr_left
  intro e _
  rw [decide_eq_decide.mpr (mem_dictKeys (f := S) (k := e.key))]

theorem update_source_hashes_snd (fp : String → String) (S : List Entry) :
    (update_source_hashes fp S).2 = ((dictKeys S).filter (usCond fp S)).length := by
  rw [update_source_hashes, us_step_eq, usFold_snd]
  simp

theorem update_source_hashes_keys (fp : String → String) (S : List Entry) :
    keysOf (update_source_hashes fp S).1 = keysOf S := by
  rw [update_source_hashes_fst]
  exact keysOf_map_keyPres _
    (refreshMapFun_key S fp (fun k => decide (k ∈ keysOf S) && usCond fp S k)) S

theorem update_source_hashes_lookup (fp : String → String) (S : List Entry)
    (k : String) :
    lookupLast (update_source_hashes fp S).1 k
      = (lookupLast S k).map (fun e =>
          if decide (e.key ∈ keysOf S) && usCond fp S e.key then
            { e with hash := some (fp (srcVal S e.key)) } else e) := by
  rw [update_source_hashes_fst]
  exact lookupLast_map_keyPres _
    (refreshMapFun_key S fp (fun k => decide (k ∈ keysOf S) && usCond fp S k)) S k

theorem usCond_output (fp : String → String) (S : List Entry) (k : String) :
    usCond fp (update_source_hashes fp S).1 k = false := by
  rw [usCond, update_source_hashes_lookup]
  rcases hlt : lookupLast S k with _ | e
  · rfl
  · have hkey : e.key = k := lookupLast_key hlt
    have hmem : e.key ∈ keysOf S := by
      rw [hkey]
      exact mem_keysOf.mpr ⟨e, lookupLast_mem hlt, hkey⟩
    have hsv : srcVal S e.key = e.value := by
      rw [srcVal, hkey, hlt]
    by_cases hc : usCond fp S e.key = true
    · simp [hmem, hc, hsv]
    · have hc' : usCond fp S e.key = false := Bool.eq_false_iff.mpr hc
      rw [usCond, hkey, hlt] at hc'
      simp only [decide_eq_false_iff_not, not_not] at hc'
      simp [hc, hc']

theorem update_source_hashes_idem (fp : String → String) (S : List Entry) :
    update_source_hashes fp (update_source_hashes fp S).1
      = ((update_source_hashes fp S).1, 0) := by
  have h1 : (update_source_hashes fp (update_source_hashes fp S).1).1
      = (update_source_hashes fp S).1 := by
    rw [update_source_hashes_fst]
    have : ∀ e ∈ (update_source_hashes fp S).1,
        (if decide (e.key ∈ keysOf (update_source_hashes fp S).1) &&
            usCond fp (update_source_hashes fp S).1 e.key then
          { e with hash := some (fp (srcVal (update_source_hashes fp S).1 e.key)) }
        else e) = e := by
      intro e _
      rw [usCond_output]
      simp
    rw [List.map_congr_left this]
    simp
  have h2 : (update_source_hashes fp (update_source_hashes fp S).1).2 = 0 := by
    rw [update_source_hashes_snd]
    have : (dictKeys (update_source_hashes fp S).1).filter
        (usCond fp (update_source_hashes fp S).1) = [] := by
      apply List.filter_eq_nil_iff.mpr
      intro k _
      rw [usCond_output]
      simp
    rw [this]
    rfl
  calc update_source_hashes fp (update_source_hashes fp S).1
      = ((update_source_hashes fp (update_source_hashes fp S).1).1,
         (update_source_hashes fp (update_source_hashes fp S).1).2) := rfl
    _ = ((update_source_hashes fp S).1, 0) := by rw [h1, h2]

/- ------------------------------------------------------------------
Fixpoint of the per-target sync (claim C1).
------------------------------------------------------------------ -/

theorem getLast?_of_all_eq {l : List Entry} {a : Entry} (hne : l ≠ [])
    (hall : ∀ x ∈ l, x = a) : l.getLast? = some a := by
  rw [List.getLast?_eq_getLast_of_ne_nil hne]
  exact congrArg some (hall _ (List.getLast_mem hne))

theorem keysOf_syncTarget (fmt : Fmt) (fp : String → String) (S T : List Entry)
    (k' : String) :
    k' ∈ keysOf (syncTarget fmt fp S T).content ↔
      k' ∈ keysOf T ∨ k' ∈ syncMissing S T := by
  cases fmt
  · rw [syncTarget_elements_content,
      keysOf_map_keyPres _ (refreshMapFun_key S fp
        (refreshQ S T (syncMissing S T) (syncStale .elements fp S T)))]
    exact insFold_mem_keys _ fp S (keysOf S) k' (syncMissing S T) ⟨T, keysOf T, 0⟩
  · rw [syncTarget_texts_content]
    exact insFold_mem_keys _ fp S (keysOf S) k' (syncMissing S T) ⟨T, keysOf T, 0⟩

theorem syncMissing_syncTarget (fmt : Fmt) (fp : String → String) (S T : List Entry) :
    syncMissing S (syncTarget fmt fp S T).content = [] := by
  rw [syncMissing]
  apply List.filter_eq_nil_iff.mpr
  intro k hk
  simp only [decide_eq_true_eq, not_not]
  rw [keysOf_syncTarget]
  by_cases hkT : k ∈ keysOf T
  · exact Or.inl hkT
  · exact Or.inr (mem_syncMissing.mpr ⟨hk, hkT⟩)

theorem lookupLast_syncTarget_not_missing (fp : String → String) (S T : List Entry)
    (k : String) (h : k ∉ syncMissing S T) :
    lookupLast (syncTarget .elements fp S T).content k
      = (lookupLast T k).map (fun e =>
          if refreshQ S T (syncMissing S T) (syncStale .elements fp S T) e.key then
            { e with hash := some (fp (srcVal S e.key)) } else e) := by
  rw [syncTarget_elements_content,
    lookupLast_map_keyPres _ (refreshMapFun_key S fp
      (refreshQ S T (syncMissing S T) (syncStale .elements fp S T)))]
  have hfil : ((syncMissing S T).foldl (insertOne .elements fp S (keysOf S))
      ⟨T, keysOf T, 0⟩).content.filter (fun e => e.key = k)
      = T.filter (fun e => e.key = k) := by
    apply insFold_filter
    intro k' hk'
    have hne : k' ≠ k := fun he => h (he ▸ hk')
    simp [mkMissingEntry_key, hne]
  rw [lookupLast, lookupLast, hfil]

theorem lookupLast_syncTarget_missing (fp : String → String) (S T : List Entry)
    (k : String) (h : k ∈ syncMissing S T) :
    lookupLast (syncTarget .elements fp S T).content k
      = some (mkMissingEntry .elements fp S k) := by
  have hkT : k ∉ keysOf T := (mem_syncMissing.mp h).2
  have hmemne : mkMissingEntry .elements fp S k ∈
      ((syncMissing S T).foldl (insertOne .elements fp S (keysOf S))
        ⟨T, keysOf T, 0⟩).content :=
    (insFold_content_mem .elements fp S (keysOf S) _ _ _).mpr (Or.inr ⟨k, h, rfl⟩)
  have hlast : lookupLast ((syncMissing S T).foldl (insertOne .elements fp S (keysOf S))
      ⟨T, keysOf T, 0⟩).content k = some (mkMissingEntry .elements fp S k) := by
    rw [lookupLast]
    apply getLast?_of_all_eq
    · intro hnil
      have : mkMissingEntry .elements fp S k ∈
          (((syncMissing S T).foldl (insertOne .elements fp S (keysOf S))
            ⟨T, keysOf T, 0⟩).content.filter (fun e => e.key = k)) :=
        List.mem_filter.mpr ⟨hmemne, by simp [mkMissingEntry_key]⟩
      rw [hnil] at this
      cases this
    · intro x hx
      rcases List.mem_filter.mp hx with ⟨hx1, hx2⟩
      have hxk : x.key = k := by simpa using hx2
      rcases (insFold_content_mem .elements fp S (keysOf S) x _ _).mp hx1 with
        hT | ⟨k0, hk0, hmk⟩
      · exact absurd (mem_keysOf.mpr ⟨x, hT, hxk⟩) hkT
      · have : k0 = k := by
          rw [← hxk, hmk, mkMissingEntry_key]
        rw [hmk, this]
  rw [syncTarget_elements_content,
    lookupLast_map_keyPres _ (refreshMapFun_key S fp
      (refreshQ S T (syncMissing S T) (syncStale .elements fp S T))),
    hlast]
  have hQ : refreshQ S T (syncMissing S T) (syncStale .elements fp S T)
      (mkMissingEntry .elements fp S k).key = false := by
    rw [mkMissingEntry_key, refreshQ]
    simp [hkT]
  simp [hQ]

theorem syncTarget_content_idem_elements (fp : String → String) (S T : List Entry) :
    (syncTarget .elements fp S (syncTarget .elements fp S T).content).content
      = (syncTarget .elements fp S T).content := by
  have hms2 : syncMissing S (syncTarget .elements fp S T).content = [] :=
    syncMissing_syncTarget .elements fp S T
  rw [syncTarget_elements_content fp S (syncTarget .elements fp S T).content, hms2,
    List.foldl_nil]
  have hid : ∀ e ∈ (syncTarget .elements fp S T).content,
      (if refreshQ S (syncTarget .elements fp S T).content []
          (syncStale .elements fp S (syncTarget .elements fp S T).content) e.key then
        { e with hash := some (fp (srcVal S e.key)) } else e) = e := by
    intro e he
    by_cases hQ : refreshQ S (syncTarget .elements fp S T).content []
        (syncStale .elements fp S (syncTarget .elements fp S T).content) e.key = true
    · rw [if_pos hQ]
      rw [refreshQ] at hQ
      simp only [Bool.and_eq_true, decide_eq_true_eq] at hQ
      obtain ⟨hkS, ⟨hkC1, _⟩, hsa2⟩ := hQ
      have he' := he
      rw [syncTarget_elements_content] at he'
      rcases List.mem_map.mp he' with ⟨e0, he0, hFR⟩
      have hkey : e.key = e0.key := by
        rw [← hFR]
        exact refreshMapFun_key S fp _ e0
      have hh : e.hash = some (fp (srcVal S e.key)) := by
        rcases (insFold_content_mem .elements fp S (keysOf S) e0 (syncMissing S T)
            ⟨T, keysOf T, 0⟩).mp he0 with hT | ⟨k0, hk0, hmk⟩
        · -- original entry of T
          have hkT : e.key ∈ keysOf T := mem_keysOf.mpr ⟨e0, hT, hkey.symm⟩
          have hnm : e.key ∉ syncMissing S T := fun hm =>
            (mem_syncMissing.mp hm).2 hkT
          by_cases hQ1 : refreshQ S T (syncMissing S T)
              (syncStale .elements fp S T) e0.key = true
          · rw [if_pos hQ1] at hFR
            rw [← hFR]
          · -- the first run skipped this key: it is stale with a truthy hash,
            -- so the second run also skips it, contradicting hsa2
            exfalso
            rcases lookupLast_isSome_of_mem hkT with ⟨et, hlt⟩
            have hetk : et.key = e.key := lookupLast_key hlt
            have hsa1 : shouldAddHash T (syncStale .elements fp S T) e.key
                = false := by
              rcases Bool.eq_false_or_eq_true
                  (shouldAddHash T (syncStale .elements fp S T) e.key) with h | h
              · exfalso
                apply hQ1
                rw [refreshQ, ← hkey]
                simp [hkS, hkT, hnm, h]
              · exact h
            have hst1 : e.key ∈ syncStale .elements fp S T := by
              by_contra hc
              rw [shouldAddHash, hlt] at hsa1
              simp [hc] at hsa1
            rcases mem_syncStale_elements.mp hst1 with ⟨_, et', hlt', hne', hmk'⟩
            rw [hlt] at hlt'
            cases hlt'
            have hth : truthy et.hash = true := by
              rcases Bool.eq_false_or_eq_true (truthy et.hash) with h | h
              · exact h
              · exfalso
                rw [shouldAddHash, hlt] at hsa1
                simp [h, hmk'] at hsa1
            have hlook2 : lookupLast (syncTarget .elements fp S T).content e.key
                = some et := by
              rw [lookupLast_syncTarget_not_missing fp S T e.key hnm, hlt]
              have hq : refreshQ S T (syncMissing S T) (syncStale .elements fp S T)
                  et.key = false := by
                rw [hetk, hkey]
                exact Bool.eq_false_iff.mpr hQ1
              simp [hq]
            have hst2 : e.key ∈ syncStale .elements fp S
                (syncTarget .elements fp S T).content :=
              mem_syncStale_elements.mpr ⟨hkS, et, hlook2, hne', hmk'⟩
            rw [shouldAddHash, hlook2] at hsa2
            simp [hst2, hth] at hsa2
        · -- entry freshly inserted by the first run
          have hkk : e.key = k0 := by
            rw [hkey, hmk, mkMissingEntry_key]
          have hkT0 : e.key ∉ keysOf T := by
            rw [hkk]
            exact (mem_syncMissing.mp hk0).2
          have hQ1 : refreshQ S T (syncMissing S T)
              (syncStale .elements fp S T) e0.key = false := by
            rw [← hkey, refreshQ]
            simp [hkT0]
          rw [if_neg (by simp [hQ1])] at hFR
          rw [← hFR, hmk, mkMissingEntry_key, mkMissingEntry, format_entry]
          simp
      rw [← hh]
    · rw [if_neg hQ]
  rw [List.map_congr_left hid]
  simp

theorem syncTarget_content_idem_texts (fp : String → String) (S T : List Entry) :
    (syncTarget .texts fp S (syncTarget .texts fp S T).content).content
      = (syncTarget .texts fp S T).content := by
  rw [syncTarget_texts_content fp S (syncTarget .texts fp S T).content,
    syncMissing_syncTarget, List.foldl_nil]

theorem syncTarget_idem (fmt : Fmt) (fp : String → String) (S T : List Entry) :
    syncTarget fmt fp S (syncTarget fmt fp S T).content
      = ⟨(syncTarget fmt fp S T).content, 0⟩ := by
  have hadd : (syncTarget fmt fp S (syncTarget fmt fp S T).content).added = 0 := by
    rw [syncTarget_added, syncMissing_syncTarget]
    rfl
  have hcont : (syncTarget fmt fp S (syncTarget fmt fp S T).content).content
      = (syncTarget fmt fp S T).content := by
    cases fmt
    · exact syncTarget_content_idem_elements fp S T
    · exact syncTarget_content_idem_texts fp S T
  calc syncTarget fmt fp S (syncTarget fmt fp S T).content
      = ⟨(syncTarget fmt fp S (syncTarget fmt fp S T).content).content,
         (syncTarget fmt fp S (syncTarget fmt fp S T).content).added⟩ := rfl
    _ = ⟨(syncTarget fmt fp S T).content, 0⟩ := by rw [hadd, hcont]

theorem syncCommand_fst (fmt : Fmt) (fp : String → String) (S : List Entry)
    (ts : List (Option (List Entry))) :
    (syncCommand fmt fp S ts).1
      = if fmt = .elements then update_source_hashes fp S else (S, 0) := rfl

theorem syncCommand_snd (fmt : Fmt) (fp : String → String) (S : List Entry)
    (ts : List (Option (List Entry))) :
    (syncCommand fmt fp S ts).2
      = ts.map (Option.map (syncTarget fmt fp (syncCommand fmt fp S ts).1.1)) := rfl

/-- C1: running the sync command a second time immediately after a completed
run changes nothing: the source content is identical with zero hash updates,
and every target content written by the second run is identical to the first
run output with zero insertions. -/
theorem C1_sync_idempotent (fmt : Fmt) (fp : String → String) (S : List Entry)
    (ts : List (Option (List Entry))) :
    syncCommand fmt fp (syncCommand fmt fp S ts).1.1
        ((syncCommand fmt fp S ts).2.map (Option.map TargetResult.content))
      = (((syncCommand fmt fp S ts).1.1, 0),
         ((syncCommand fmt fp S ts).2.map (Option.map TargetResult.content)).map
           (Option.map (fun c => ⟨c, 0⟩))) := by
  have hsrc2 : (if fmt = .elements then
      update_source_hashes fp (syncCommand fmt fp S ts).1.1 else
      ((syncCommand fmt fp S ts).1.1, 0)) = ((syncCommand fmt fp S ts).1.1, 0) := by
    cases fmt
    · rw [if_pos rfl]
      have h0 : (syncCommand .elements fp S ts).1.1
          = (update_source_hashes fp S).1 := rfl
      rw [h0]
      exact update_source_hashes_idem fp S
    · rw [if_neg (by simp)]
  have h1run2 : (syncCommand fmt fp (syncCommand fmt fp S ts).1.1
      ((syncCommand fmt fp S ts).2.map (Option.map TargetResult.content))).1
      = ((syncCommand fmt fp S ts).1.1, 0) := by
    rw [syncCommand_fst]
    exact hsrc2
  have h11 : (syncCommand fmt fp (syncCommand fmt fp S ts).1.1
      ((syncCommand fmt fp S ts).2.map (Option.map TargetResult.content))).1.1
      = (syncCommand fmt fp S ts).1.1 := by
    rw [h1run2]
  apply Prod.ext
  · exact h1run2
  · rw [syncCommand_snd, h11, syncCommand_snd]
    rw [List.map_map, List.map_map, List.map_map, List.map_map]
    apply List.map_congr_left
    intro t? _
    cases t? with
    | none => rfl
    | some t =>
      simp [syncTarget_idem fmt fp (syncCommand fmt fp S ts).1.1 t]

end LangSync
